import Mathlib

/-!
Rasterization primitives of `interior_design.cpp`.

A shallow embedding of the three point generators of the program
(`drawLineDDA`, `drawLineBresenham`, `drawCircleMidpoint`) together with
theorems about the sequences of points they emit.

Modelling conventions.

* `int` is read as a mathematical integer (`Int`, no wrap-around), `float` as
  an exact rational (`Rat`): rounding of `float` arithmetic is not modelled.
  The comparison `i <= steps` of the `int` counter with the `float` bound
  compares the two numbers.
* `abs` is called unqualified, with `<cmath>` and `<cstdlib>` included: the
  call binds to `int abs(int)`, so a `float` argument is first converted to
  `int`, which discards its fractional part (`floatToInt`), and the result is
  an `int`.
* `glBegin(GL_POINTS) ... glVertex(x, y) ... glEnd()` is modelled by the list
  of the vertices handed to `glVertex`, in emission order.
* Every loop is a function with a fuel argument counting the loop tests that
  may still be executed: it returns `none` when the fuel runs out before the
  loop exits and `some pts` when the loop exits having emitted `pts`.
-/

namespace InteriorDesign

/-! ## Bresenham line (`drawLineBresenham`, lines 82-106) -/

/-- The `while (true)` loop of `drawLineBresenham`. The loop variables are the
current position `x1`, `y1` and the accumulator `err`; `x2`, `y2`, `dx`, `dy`,
`sx`, `sy` are not modified by the loop. -/
def bresenhamLoop (x2 y2 dx dy sx sy : Int) :
    Nat → Int → Int → Int → Option (List (Int × Int))
  | 0, _, _, _ => none
  | fuel + 1, x1, y1, err =>
    -- glVertex2i(x1, y1); if (x1 == x2 && y1 == y2) break;
    if x1 = x2 ∧ y1 = y2 then some [(x1, y1)]
    else
      let e2 := 2 * err
      -- if (e2 > -dy) { err -= dy; x1 += sx; }
      let errA := if e2 > -dy then err - dy else err
      let xA := if e2 > -dy then x1 + sx else x1
      -- if (e2 < dx) { err += dx; y1 += sy; }
      let errB := if e2 < dx then errA + dx else errA
      let yB := if e2 < dx then y1 + sy else y1
      (bresenhamLoop x2 y2 dx dy sx sy fuel xA yB errB).map (fun pts => (x1, y1) :: pts)

/-- The function `drawLineBresenham`: the points emitted between `glBegin` and `glEnd`. -/
def drawLineBresenham (fuel : Nat) (x1 y1 x2 y2 : Int) : Option (List (Int × Int)) :=
  let dx : Int := |x2 - x1|
  let dy : Int := |y2 - y1|
  let sx : Int := if x1 < x2 then 1 else -1
  let sy : Int := if y1 < y2 then 1 else -1
  let err := dx - dy
  bresenhamLoop x2 y2 dx dy sx sy fuel x1 y1 err

/-! ## DDA line (`drawLineDDA`, lines 49-75) -/

/-- The `for (int i = 0; i <= steps; i++)` loop of `drawLineDDA`. The loop
variables are the counter `i` and the running position `x`, `y`; the test
`i <= steps` compares the counter, converted to a number, with `steps`. -/
def ddaLoop (steps xIncrement yIncrement : ℚ) :
    Nat → Int → ℚ → ℚ → Option (List (ℚ × ℚ))
  | 0, _, _, _ => none
  | fuel + 1, i, x, y =>
    if (i : ℚ) ≤ steps then
      -- glVertex2f(x, y); x += xIncrement; y += yIncrement;
      (ddaLoop steps xIncrement yIncrement fuel (i + 1) (x + xIncrement) (y + yIncrement)).map
        (fun pts => (x, y) :: pts)
    else some []

/-- The implicit conversion of a `float` to `int`: truncation toward zero. -/
def floatToInt (q : ℚ) : Int := if 0 ≤ q then ⌊q⌋ else ⌈q⌉

/-- The function `drawLineDDA`: the points emitted between `glBegin` and `glEnd`.
In `abs(dx)` and `abs(dy)` the argument is converted to `int` and the result
is an `int`, which the assignment to `steps` converts back. -/
def drawLineDDA (fuel : Nat) (x1 y1 x2 y2 : ℚ) : Option (List (ℚ × ℚ)) :=
  let dx := x2 - x1
  let dy := y2 - y1
  -- if (abs(dx) > abs(dy)) steps = abs(dx); else steps = abs(dy);
  let steps0 : ℚ :=
    if |floatToInt dx| > |floatToInt dy| then ((|floatToInt dx| : Int) : ℚ)
    else ((|floatToInt dy| : Int) : ℚ)
  -- if (steps == 0) steps = 1;
  let steps : ℚ := if steps0 = 0 then 1 else steps0
  let xIncrement := dx / steps
  let yIncrement := dy / steps
  ddaLoop steps xIncrement yIncrement fuel 0 x1 y1

/-! ## Midpoint circle (`drawCircleMidpoint`, lines 113-138) -/

/-- The eight vertices emitted by one iteration of the loop of
`drawCircleMidpoint`, in the order of the eight `glVertex2i` calls. -/
def circleOctants (cx cy x y : Int) : List (Int × Int) :=
  [(cx + x, cy + y), (cx - x, cy + y), (cx + x, cy - y), (cx - x, cy - y),
   (cx + y, cy + x), (cx - y, cy + x), (cx + y, cy - x), (cx - y, cy - x)]

/-- The `while (x <= y)` loop of `drawCircleMidpoint`, on the loop variables
`x`, `y` and `d`. -/
def circleLoop (cx cy : Int) : Nat → Int → Int → Int → Option (List (Int × Int))
  | 0, _, _, _ => none
  | fuel + 1, x, y, d =>
    if x ≤ y then
      -- if (d < 0) d = d + 2*x + 3; else { d = d + 2*(x - y) + 5; y--; }
      let dA := if d < 0 then d + 2 * x + 3 else d + 2 * (x - y) + 5
      let yA := if d < 0 then y else y - 1
      -- x++;
      (circleLoop cx cy fuel (x + 1) yA dA).map (fun pts => circleOctants cx cy x y ++ pts)
    else some []

/-- The function `drawCircleMidpoint`: the points emitted between `glBegin` and `glEnd`. -/
def drawCircleMidpoint (fuel : Nat) (cx cy radius : Int) : Option (List (Int × Int)) :=
  let x : Int := 0
  let y : Int := radius
  let d : Int := 1 - radius
  circleLoop cx cy fuel x y d

/-! ## Termination and emitted sequence of a fuelled loop -/

/-- `EmitsAfter run n pts`: the computation `run` needs exactly `n` units of
fuel: with `n` or more it exits having emitted the sequence `pts`, with less it
is still running when the fuel is used up. -/
def EmitsAfter {α : Type} (run : Nat → Option (List α)) (n : Nat) (pts : List α) : Prop :=
  ∀ fuel, run fuel = if n ≤ fuel then some pts else none

/-- `Emits run pts`: the computation `run` terminates and the sequence it emits is `pts`. -/
def Emits {α : Type} (run : Nat → Option (List α)) (pts : List α) : Prop :=
  ∃ n, EmitsAfter run n pts

/-! ## Auxiliary definitions used in the proofs -/

/-- One pass through the body of the Bresenham loop after the `break` test, as
a function on the loop variables `(x1, y1, err)`. -/
def bresenhamStep (dx dy sx sy : Int) : Int × Int × Int → Int × Int × Int
  | (x, y, err) =>
    (if 2 * err > -dy then x + sx else x,
     if 2 * err < dx then y + sy else y,
     if 2 * err < dx then (if 2 * err > -dy then err - dy else err) + dx
     else (if 2 * err > -dy then err - dy else err))

/-- The position held by a Bresenham loop state. -/
def bresenhamPos (s : Int × Int × Int) : Int × Int := (s.1, s.2.1)

/-- The Bresenham loop state after `k` passes through the loop body, in
coordinates relative to the start point and with both step signs `+1`:
the components count the steps taken along x and along y, the third is `err`. -/
def bresenhamNorm (dx dy : Int) (k : Nat) : Int × Int × Int :=
  (bresenhamStep dx dy 1 1)^[k] (0, 0, dx - dy)

/-- Number of passes through the Bresenham loop body: the length of the major axis. -/
def bresenhamSteps (x1 y1 x2 y2 : Int) : Nat := (max |x2 - x1| |y2 - y1|).toNat

/-- The point list that the proofs show `drawLineBresenham` to emit: the start
point displaced by the step counts of `bresenhamNorm`, for `k` from `0` to the
length of the major axis. -/
def bresenhamTrace (x1 y1 x2 y2 : Int) : List (Int × Int) :=
  (List.range (bresenhamSteps x1 y1 x2 y2 + 1)).map (fun k =>
    (x1 + (if x1 < x2 then 1 else -1) * (bresenhamNorm |x2 - x1| |y2 - y1| k).1,
     y1 + (if y1 < y2 then 1 else -1) * (bresenhamNorm |x2 - x1| |y2 - y1| k).2.1))

/-- The value of the variable `steps` of `drawLineDDA` when the loop starts. -/
def ddaSteps (x1 y1 x2 y2 : ℚ) : ℚ :=
  if (if |floatToInt (x2 - x1)| > |floatToInt (y2 - y1)|
      then ((|floatToInt (x2 - x1)| : Int) : ℚ)
      else ((|floatToInt (y2 - y1)| : Int) : ℚ)) = 0 then 1
  else (if |floatToInt (x2 - x1)| > |floatToInt (y2 - y1)|
      then ((|floatToInt (x2 - x1)| : Int) : ℚ)
      else ((|floatToInt (y2 - y1)| : Int) : ℚ))

/-- The point list that the proofs show `drawLineDDA` to emit: the start point
plus `k` increments, for `k` from `0` to the integer part of `steps`. -/
def ddaTrace (x1 y1 x2 y2 : ℚ) : List (ℚ × ℚ) :=
  (List.range (⌊ddaSteps x1 y1 x2 y2⌋.toNat + 1)).map (fun (k : Nat) =>
    (x1 + (k : ℚ) * ((x2 - x1) / ddaSteps x1 y1 x2 y2),
     y1 + (k : ℚ) * ((y2 - y1) / ddaSteps x1 y1 x2 y2)))

/-- The offset pairs `(x, y)` for which the loop of `drawCircleMidpoint` runs
its body, in order, as far as `fuel` loop tests reach: the loop of `circleLoop`
with the emission of the eight vertices replaced by recording `(x, y)`. -/
def circleOffsets : Nat → Int → Int → Int → List (Int × Int)
  | 0, _, _, _ => []
  | fuel + 1, x, y, d =>
    if x ≤ y then
      (x, y) :: circleOffsets fuel (x + 1) (if d < 0 then y else y - 1)
        (if d < 0 then d + 2 * x + 3 else d + 2 * (x - y) + 5)
    else []

/-! ## Bresenham line: proofs -/

theorem bresenhamLoop_eq_trace (x2 y2 dx dy sx sy : Int) (n : Nat) :
    ∀ (s : Int × Int × Int),
      (∀ k, k < n → bresenhamPos ((bresenhamStep dx dy sx sy)^[k] s) ≠ (x2, y2)) →
      bresenhamPos ((bresenhamStep dx dy sx sy)^[n] s) = (x2, y2) →
      ∀ j, bresenhamLoop x2 y2 dx dy sx sy (n + 1 + j) s.1 s.2.1 s.2.2 =
        some ((List.range (n + 1)).map
          (fun k => bresenhamPos ((bresenhamStep dx dy sx sy)^[k] s))) := by
  induction n with
  | zero =>
    rintro ⟨x, y, err⟩ _ hend j
    simp only [Function.iterate_zero, id_eq, bresenhamPos, Prod.mk.injEq] at hend
    have : 0 + 1 + j = j + 1 := by omega
    rw [this, bresenhamLoop]
    obtain ⟨rfl, rfl⟩ := hend
    simp [bresenhamPos, List.range_succ]
  | succ n ih =>
    rintro ⟨x, y, err⟩ hne hend j
    have h0 := hne 0 (Nat.succ_pos n)
    simp only [Function.iterate_zero, id_eq, bresenhamPos, ne_eq, Prod.mk.injEq] at h0
    have : n + 1 + 1 + j = (n + 1 + j) + 1 := by omega
    rw [this, bresenhamLoop]
    simp only [h0, if_false]
    have ih' := ih (bresenhamStep dx dy sx sy (x, y, err))
      (fun k hk => by
        have := hne (k + 1) (Nat.succ_lt_succ hk)
        rwa [Function.iterate_succ_apply] at this)
      (by rwa [Function.iterate_succ_apply] at hend) j
    simp only [bresenhamStep] at ih'
    simp only [gt_iff_lt]  at ih' ⊢
    rw [ih']
    simp only [Option.map_some', Option.some.injEq]
    rw [List.range_succ_eq_map (n + 1), List.map_cons, List.map_map]
    simp only [Function.iterate_zero, id_eq, bresenhamPos]
    congr 1

theorem bresenhamNorm_succ (dx dy : Int) (k : Nat) :
    bresenhamNorm dx dy (k + 1) = bresenhamStep dx dy 1 1 (bresenhamNorm dx dy k) := by
  simp only [bresenhamNorm, Function.iterate_succ_apply']

theorem bresenhamStep_iterate (dx dy sx sy x1 y1 : Int) (k : Nat) :
    (bresenhamStep dx dy sx sy)^[k] (x1, y1, dx - dy) =
      (x1 + sx * (bresenhamNorm dx dy k).1, y1 + sy * (bresenhamNorm dx dy k).2.1,
        (bresenhamNorm dx dy k).2.2) := by
  induction k with
  | zero => simp [bresenhamNorm]
  | succ k ih =>
    rw [Function.iterate_succ_apply', ih, bresenhamNorm_succ]
    generalize bresenhamNorm dx dy k = s
    obtain ⟨a, b, e⟩ := s
    simp only [bresenhamStep]
    split_ifs <;> refine Prod.ext ?_ (Prod.ext ?_ ?_) <;> dsimp only <;> ring

/-- Loop invariant of the Bresenham loop when x is the major axis. -/
theorem bresenhamNorm_xmajor (dx dy : Int) (hdx : 1 ≤ dx) (hdy : 0 ≤ dy) (h : dy ≤ dx)
    (k : Nat) :
    (bresenhamNorm dx dy k).1 = k ∧ 0 ≤ (bresenhamNorm dx dy k).2.1 ∧
    (bresenhamNorm dx dy k).2.2 =
      dx - dy - (bresenhamNorm dx dy k).1 * dy + (bresenhamNorm dx dy k).2.1 * dx ∧
    -dy < 2 * (bresenhamNorm dx dy k).2.2 ∧ dx - 2 * dy ≤ 2 * (bresenhamNorm dx dy k).2.2 ∧
    2 * (bresenhamNorm dx dy k).2.2 < 3 * dx - 2 * dy := by
  induction k with
  | zero =>
    simp only [bresenhamNorm, Function.iterate_zero, id_eq]
    refine ⟨by simp, le_refl _, by ring, by linarith, by linarith, by linarith⟩
  | succ k ih =>
    rw [bresenhamNorm_succ]
    generalize bresenhamNorm dx dy k = s at ih
    obtain ⟨a, b, e⟩ := s
    simp only at ih
    obtain ⟨ha, hb, he, h1, h2, h3⟩ := ih
    simp only [bresenhamStep]
    have hx : 2 * e > -dy := h1
    simp only [hx, if_true]
    split_ifs with hy
    · refine ⟨by push_cast; linarith, by linarith, by rw [he]; ring, by linarith, by linarith,
        by linarith⟩
    · refine ⟨by push_cast; linarith, hb, by rw [he]; ring, ?_, by linarith, by linarith⟩
      push_neg at hy
      omega

/-- Loop invariant of the Bresenham loop when y is the major axis. -/
theorem bresenhamNorm_ymajor (dx dy : Int) (hdx : 0 ≤ dx) (h : dx < dy)
    (k : Nat) :
    (bresenhamNorm dx dy k).2.1 = k ∧ 0 ≤ (bresenhamNorm dx dy k).1 ∧
    (bresenhamNorm dx dy k).2.2 =
      dx - dy - (bresenhamNorm dx dy k).1 * dy + (bresenhamNorm dx dy k).2.1 * dx ∧
    2 * (bresenhamNorm dx dy k).2.2 < dx ∧ 2 * (bresenhamNorm dx dy k).2.2 ≤ 2 * dx - dy ∧
    2 * dx - 3 * dy < 2 * (bresenhamNorm dx dy k).2.2 := by
  induction k with
  | zero =>
    simp only [bresenhamNorm, Function.iterate_zero, id_eq]
    refine ⟨by simp, le_refl _, by ring, by linarith, by linarith, by linarith⟩
  | succ k ih =>
    rw [bresenhamNorm_succ]
    generalize bresenhamNorm dx dy k = s at ih
    obtain ⟨a, b, e⟩ := s
    simp only at ih
    obtain ⟨hb, ha, he, h1, h2, h3⟩ := ih
    simp only [bresenhamStep]
    simp only [h1, if_true]
    split_ifs with hx
    · refine ⟨by push_cast; linarith, by linarith, by rw [he]; ring, by omega, by omega,
        by omega⟩
    · refine ⟨by push_cast; linarith, ha, by rw [he]; ring, by omega, by omega, by omega⟩

/-- What the loop invariants give for the state after `k` passes, as long as
`k` does not exceed the length `max dx dy` of the major axis: the step counts
stay in the bounding box, the major axis has advanced `k` times, and the
position is within half a pixel of the ideal line along the minor axis. -/
theorem bresenhamNorm_facts (dx dy : Int) (hdx : 0 ≤ dx) (hdy : 0 ≤ dy) (k : Nat)
    (hk : (k : Int) ≤ max dx dy) :
    0 ≤ (bresenhamNorm dx dy k).1 ∧ (bresenhamNorm dx dy k).1 ≤ dx ∧
    0 ≤ (bresenhamNorm dx dy k).2.1 ∧ (bresenhamNorm dx dy k).2.1 ≤ dy ∧
    max (bresenhamNorm dx dy k).1 (bresenhamNorm dx dy k).2.1 = k ∧
    2 * |(bresenhamNorm dx dy k).2.1 * dx - (bresenhamNorm dx dy k).1 * dy| ≤ max dx dy ∧
    (dy ≤ dx → (bresenhamNorm dx dy k).1 = k) ∧ (dx < dy → (bresenhamNorm dx dy k).2.1 = k) := by
  rcases le_or_lt dy dx with h | h
  · rw [max_eq_left h] at hk ⊢
    rcases eq_or_lt_of_le hdx with h0 | h0
    · have hdy0 : dy = 0 := by omega
      have hk0 : k = 0 := by omega
      subst hk0
      simp [bresenhamNorm, ← h0, hdy0]
    · obtain ⟨ha, hb, he, _, h2, h3⟩ := bresenhamNorm_xmajor dx dy h0 hdy h k
      generalize bresenhamNorm dx dy k = s at ha hb he h2 h3 ⊢
      obtain ⟨a, b, e⟩ := s
      simp only at ha hb he h2 h3 ⊢
      have hak : a ≤ dx := by omega
      have ha0 : 0 ≤ a := by omega
      have hbdy : b ≤ dy := by
        by_contra hc
        push_neg at hc
        have e1 : (dy + 1) * dx ≤ b * dx := mul_le_mul_of_nonneg_right (by omega) hdx
        have e2 : a * dy ≤ dx * dy := mul_le_mul_of_nonneg_right hak hdy
        nlinarith
      have hba : b ≤ a := by
        by_contra hc
        push_neg at hc
        have e1 : (a + 1) * dx ≤ b * dx := mul_le_mul_of_nonneg_right (by omega) hdx
        have e2 : a * dy ≤ a * dx := mul_le_mul_of_nonneg_left h ha0
        nlinarith
      refine ⟨ha0, hak, hb, hbdy, by rw [max_eq_left hba]; exact ha, ?_, fun _ => ha,
        fun hlt => absurd h (not_le.mpr hlt)⟩
      rcases abs_cases (b * dx - a * dy) with ⟨hab, _⟩ | ⟨hab, _⟩ <;> rw [hab] <;> linarith
  · rw [max_eq_right h.le] at hk ⊢
    obtain ⟨hb, ha, he, _, h2, h3⟩ := bresenhamNorm_ymajor dx dy hdx h k
    generalize bresenhamNorm dx dy k = s at ha hb he h2 h3 ⊢
    obtain ⟨a, b, e⟩ := s
    simp only at ha hb he h2 h3 ⊢
    have hbk : b ≤ dy := by omega
    have hb0 : 0 ≤ b := by omega
    have hadx : a ≤ dx := by
      by_contra hc
      push_neg at hc
      have e1 : (dx + 1) * dy ≤ a * dy := mul_le_mul_of_nonneg_right (by omega) hdy
      have e2 : b * dx ≤ dy * dx := mul_le_mul_of_nonneg_right hbk hdx
      nlinarith
    have hab : a ≤ b := by
      by_contra hc
      push_neg at hc
      have e1 : (b + 1) * dy ≤ a * dy := mul_le_mul_of_nonneg_right (by omega) hdy
      have e2 : b * dx ≤ b * dy := mul_le_mul_of_nonneg_left h.le hb0
      nlinarith
    refine ⟨ha, hadx, hb0, hbk, by rw [max_eq_right hab]; exact hb, ?_,
      fun hle => absurd h (not_lt.mpr hle), fun _ => hb⟩
    rcases abs_cases (b * dx - a * dy) with ⟨hab, _⟩ | ⟨hab, _⟩ <;> rw [hab] <;> linarith

theorem bresenhamLoop_none (x2 y2 dx dy sx sy : Int) (n : Nat) :
    ∀ (s : Int × Int × Int),
      (∀ k, k < n → bresenhamPos ((bresenhamStep dx dy sx sy)^[k] s) ≠ (x2, y2)) →
      ∀ fuel, fuel ≤ n → bresenhamLoop x2 y2 dx dy sx sy fuel s.1 s.2.1 s.2.2 = none := by
  induction n with
  | zero =>
    intro s _ fuel hf
    obtain rfl : fuel = 0 := by omega
    rfl
  | succ n ih =>
    rintro ⟨x, y, err⟩ hne fuel hf
    cases fuel with
    | zero => rfl
    | succ fuel =>
      have h0 := hne 0 (Nat.succ_pos n)
      simp only [Function.iterate_zero, id_eq, bresenhamPos, ne_eq, Prod.mk.injEq] at h0
      rw [bresenhamLoop]
      simp only [h0, if_false]
      have ih' := ih (bresenhamStep dx dy sx sy (x, y, err))
        (fun k hk => by
          have := hne (k + 1) (Nat.succ_lt_succ hk)
          rwa [Function.iterate_succ_apply] at this) fuel (by omega)
      simp only [bresenhamStep] at ih'
      simp only [gt_iff_lt] at ih' ⊢
      rw [ih']
      rfl

theorem bresenham_sign_mul_abs (u v : Int) :
    (if u < v then (1 : Int) else -1) * |v - u| = v - u := by
  split_ifs with h
  · rw [abs_of_pos (by omega)]; ring
  · rw [abs_of_nonpos (by omega)]; ring

theorem bresenham_sign_mul_cancel (u v a b : Int)
    (h : (if u < v then (1 : Int) else -1) * a = (if u < v then (1 : Int) else -1) * b) :
    a = b := by
  split_ifs at h <;> omega

theorem bresenhamSteps_cast (x1 y1 x2 y2 : Int) :
    ((bresenhamSteps x1 y1 x2 y2 : Nat) : Int) = max |x2 - x1| |y2 - y1| := by
  unfold bresenhamSteps
  exact Int.toNat_of_nonneg (le_max_of_le_left (abs_nonneg _))

theorem bresenhamNorm_end (dx dy : Int) (hdx : 0 ≤ dx) (hdy : 0 ≤ dy) (k : Nat)
    (hk : (k : Int) = max dx dy) :
    (bresenhamNorm dx dy k).1 = dx ∧ (bresenhamNorm dx dy k).2.1 = dy := by
  obtain ⟨ha0, ha, hb0, hb, _, hd, hx, hy⟩ := bresenhamNorm_facts dx dy hdx hdy k hk.le
  rw [← hk] at hd
  generalize bresenhamNorm dx dy k = s at ha0 ha hb0 hb hd hx hy ⊢
  obtain ⟨a, b, e⟩ := s
  simp only at ha0 ha hb0 hb hd hx hy ⊢
  rcases le_or_lt dy dx with h | h
  · rw [max_eq_left h] at hk
    have hak : a = dx := by rw [hx h, hk]
    subst hak
    refine ⟨rfl, ?_⟩
    by_contra hc
    have hlt : b + 1 ≤ dy := by omega
    have e1 : (b + 1) * a ≤ dy * a := mul_le_mul_of_nonneg_right hlt hdx
    rcases abs_cases (b * a - a * dy) with ⟨hab, _⟩ | ⟨hab, _⟩ <;> rw [hab] at hd <;> nlinarith
  · rw [max_eq_right h.le] at hk
    have hbk : b = dy := by rw [hy h, hk]
    subst hbk
    refine ⟨?_, rfl⟩
    by_contra hc
    have hlt : a + 1 ≤ dx := by omega
    have e1 : (a + 1) * b ≤ dx * b := mul_le_mul_of_nonneg_right hlt hdy
    rcases abs_cases (b * dx - a * b) with ⟨hab, _⟩ | ⟨hab, _⟩ <;> rw [hab] at hd <;> nlinarith

/-- The Bresenham loop exits after exactly `bresenhamSteps + 1` tests of the
`break` condition, having emitted `bresenhamTrace`. -/
theorem drawLineBresenham_emitsAfter (x1 y1 x2 y2 : Int) :
    EmitsAfter (fun fuel => drawLineBresenham fuel x1 y1 x2 y2)
      (bresenhamSteps x1 y1 x2 y2 + 1) (bresenhamTrace x1 y1 x2 y2) := by
  intro fuel
  show drawLineBresenham fuel x1 y1 x2 y2 = _
  have hsx := bresenham_sign_mul_abs x1 x2
  have hsy := bresenham_sign_mul_abs y1 y2
  have hN := bresenhamSteps_cast x1 y1 x2 y2
  have hdx : (0 : Int) ≤ |x2 - x1| := abs_nonneg _
  have hdy : (0 : Int) ≤ |y2 - y1| := abs_nonneg _
  have hne : ∀ k, k < bresenhamSteps x1 y1 x2 y2 →
      bresenhamPos ((bresenhamStep |x2 - x1| |y2 - y1| (if x1 < x2 then 1 else -1)
        (if y1 < y2 then 1 else -1))^[k] (x1, y1, |x2 - x1| - |y2 - y1|)) ≠ (x2, y2) := by
    intro k hk hc
    rw [bresenhamStep_iterate] at hc
    simp only [bresenhamPos, Prod.mk.injEq] at hc
    obtain ⟨_, ha, _, hb, hm, _⟩ :=
      bresenhamNorm_facts _ _ hdx hdy k (by rw [← hN]; exact_mod_cast hk.le)
    have h1 := bresenham_sign_mul_cancel x1 x2 (bresenhamNorm |x2 - x1| |y2 - y1| k).1 |x2 - x1|
      (by rw [hsx]; linarith [hc.1])
    have h2 := bresenham_sign_mul_cancel y1 y2 (bresenhamNorm |x2 - x1| |y2 - y1| k).2.1
      |y2 - y1| (by rw [hsy]; linarith [hc.2])
    rw [h1, h2, ← hN] at hm
    have : k = bresenhamSteps x1 y1 x2 y2 := by exact_mod_cast hm.symm
    omega
  split_ifs with hf
  · obtain ⟨j, rfl⟩ : ∃ j, fuel = bresenhamSteps x1 y1 x2 y2 + 1 + j :=
      ⟨fuel - (bresenhamSteps x1 y1 x2 y2 + 1), by omega⟩
    have hend : bresenhamPos ((bresenhamStep |x2 - x1| |y2 - y1| (if x1 < x2 then 1 else -1)
        (if y1 < y2 then 1 else -1))^[bresenhamSteps x1 y1 x2 y2]
          (x1, y1, |x2 - x1| - |y2 - y1|)) = (x2, y2) := by
      rw [bresenhamStep_iterate]
      obtain ⟨h1, h2⟩ := bresenhamNorm_end _ _ hdx hdy _ hN
      simp only [bresenhamPos, h1, h2, hsx, hsy, Prod.mk.injEq]
      constructor <;> ring
    have := bresenhamLoop_eq_trace x2 y2 _ _ _ _ _ (x1, y1, |x2 - x1| - |y2 - y1|) hne hend j
    simp only [drawLineBresenham]
    rw [this]
    simp only [bresenhamTrace, bresenhamStep_iterate, bresenhamPos]
  · have := bresenhamLoop_none x2 y2 _ _ _ _ _ (x1, y1, |x2 - x1| - |y2 - y1|) hne fuel (by omega)
    simpa only [drawLineBresenham] using this

theorem Emits.unique {α : Type} {run : Nat → Option (List α)} {pts pts' : List α}
    (h : Emits run pts) (h' : Emits run pts') : pts = pts' := by
  obtain ⟨n, hn⟩ := h
  obtain ⟨m, hm⟩ := h'
  have e1 := hn (max n m)
  have e2 := hm (max n m)
  rw [if_pos (le_max_left n m)] at e1
  rw [if_pos (le_max_right n m), e1] at e2
  exact Option.some.inj e2

theorem bresenhamTrace_length (x1 y1 x2 y2 : Int) :
    (bresenhamTrace x1 y1 x2 y2).length = bresenhamSteps x1 y1 x2 y2 + 1 := by
  simp [bresenhamTrace]

theorem bresenhamNorm_step (dx dy : Int) (k : Nat) :
    ((bresenhamNorm dx dy (k + 1)).1 = (bresenhamNorm dx dy k).1 ∨
      (bresenhamNorm dx dy (k + 1)).1 = (bresenhamNorm dx dy k).1 + 1) ∧
    ((bresenhamNorm dx dy (k + 1)).2.1 = (bresenhamNorm dx dy k).2.1 ∨
      (bresenhamNorm dx dy (k + 1)).2.1 = (bresenhamNorm dx dy k).2.1 + 1) := by
  rw [bresenhamNorm_succ]
  generalize bresenhamNorm dx dy k = s
  obtain ⟨a, b, e⟩ := s
  simp only [bresenhamStep]
  split_ifs <;> simp

/-- C1. For all integer endpoints the loop of `drawLineBresenham` terminates,
and it does so at its `n`-th test of the `break` condition where `n` is the
number of points emitted, `n = max(|x2-x1|, |y2-y1|) + 1`. -/
theorem drawLineBresenham_terminates_count (x1 y1 x2 y2 : Int) :
    ∃ pts : List (Int × Int),
      EmitsAfter (fun fuel => drawLineBresenham fuel x1 y1 x2 y2) pts.length pts ∧
      (pts.length : Int) = max |x2 - x1| |y2 - y1| + 1 := by
  refine ⟨bresenhamTrace x1 y1 x2 y2, ?_, ?_⟩
  · rw [bresenhamTrace_length]
    exact drawLineBresenham_emitsAfter x1 y1 x2 y2
  · rw [bresenhamTrace_length]
    push_cast
    rw [bresenhamSteps_cast]

/-- C2. For all integer endpoints the sequence emitted by `drawLineBresenham`
starts with the point `(x1, y1)` and ends with the point `(x2, y2)`. -/
theorem drawLineBresenham_endpoints (x1 y1 x2 y2 : Int) :
    ∃ pts : List (Int × Int),
      Emits (fun fuel => drawLineBresenham fuel x1 y1 x2 y2) pts ∧
      pts.head? = some (x1, y1) ∧ pts.getLast? = some (x2, y2) := by
  refine ⟨bresenhamTrace x1 y1 x2 y2, ⟨_, drawLineBresenham_emitsAfter x1 y1 x2 y2⟩, ?_, ?_⟩
  · simp [bresenhamTrace, List.range_succ_eq_map, bresenhamNorm]
  · have hN := bresenhamSteps_cast x1 y1 x2 y2
    obtain ⟨h1, h2⟩ := bresenhamNorm_end _ _ (abs_nonneg (x2 - x1)) (abs_nonneg (y2 - y1)) _ hN
    simp only [bresenhamTrace, List.getLast?_map, List.getLast?_range, Nat.add_one_ne_zero,
      if_false, Nat.add_sub_cancel, Option.map_some', h1, h2, bresenham_sign_mul_abs]
    simp

/-- C3. For all integer endpoints, any two consecutive points `p`, `q` of the
sequence emitted by `drawLineBresenham` differ by at most one in each
coordinate and are not equal: the line is 8-connected without a repeated pixel. -/
theorem drawLineBresenham_eight_connected (x1 y1 x2 y2 : Int) :
    ∃ pts : List (Int × Int),
      Emits (fun fuel => drawLineBresenham fuel x1 y1 x2 y2) pts ∧
      pts.Chain' (fun p q => |q.1 - p.1| ≤ 1 ∧ |q.2 - p.2| ≤ 1 ∧ p ≠ q) := by
  refine ⟨bresenhamTrace x1 y1 x2 y2, ⟨_, drawLineBresenham_emitsAfter x1 y1 x2 y2⟩, ?_⟩
  unfold bresenhamTrace
  rw [List.chain'_map, List.chain'_range_succ]
  intro m hm
  have hN := bresenhamSteps_cast x1 y1 x2 y2
  have hdx : (0 : Int) ≤ |x2 - x1| := abs_nonneg _
  have hdy : (0 : Int) ≤ |y2 - y1| := abs_nonneg _
  obtain ⟨_, _, _, _, hm0, _⟩ :=
    bresenhamNorm_facts _ _ hdx hdy m (by rw [← hN]; exact_mod_cast hm.le)
  obtain ⟨_, _, _, _, hm1, _⟩ :=
    bresenhamNorm_facts _ _ hdx hdy (m + 1) (by rw [← hN]; exact_mod_cast hm)
  obtain ⟨hsa, hsb⟩ := bresenhamNorm_step |x2 - x1| |y2 - y1| m
  generalize bresenhamNorm |x2 - x1| |y2 - y1| (m + 1) = t at hm1 hsa hsb ⊢
  generalize bresenhamNorm |x2 - x1| |y2 - y1| m = s at hm0 hsa hsb ⊢
  obtain ⟨a, b, e⟩ := s
  obtain ⟨a', b', e'⟩ := t
  simp only at hm0 hm1 hsa hsb ⊢
  refine ⟨?_, ?_, ?_⟩
  · rw [abs_le]; split_ifs <;> constructor <;> omega
  · rw [abs_le]; split_ifs <;> constructor <;> omega
  · intro hc
    simp only [Prod.mk.injEq] at hc
    have h1 := bresenham_sign_mul_cancel x1 x2 a a' (by linarith [hc.1])
    have h2 := bresenham_sign_mul_cancel y1 y2 b b' (by linarith [hc.2])
    subst h1 h2
    rw [hm0] at hm1
    omega

/-- C7. For every integer point `(x, y)`, `drawLineBresenham` called with both
endpoints equal to `(x, y)` leaves its loop at the first test of the `break`
condition, having emitted the single point `(x, y)`. -/
theorem drawLineBresenham_degenerate (x y : Int) :
    EmitsAfter (fun fuel => drawLineBresenham fuel x y x y) 1 [(x, y)] := by
  intro fuel
  cases fuel with
  | zero => rfl
  | succ n => simp [drawLineBresenham, bresenhamLoop]

theorem bresenhamSteps_comm (x1 y1 x2 y2 : Int) :
    bresenhamSteps x2 y2 x1 y1 = bresenhamSteps x1 y1 x2 y2 := by
  unfold bresenhamSteps
  rw [abs_sub_comm x1 x2, abs_sub_comm y1 y2]

theorem bresenham_sign_swap (u v a : Int) (h : u = v → a = 0) :
    v + (if v < u then (1 : Int) else -1) * a = u + v - (u + (if u < v then 1 else -1) * a) := by
  rcases lt_trichotomy u v with h1 | h1 | h1
  · rw [if_pos h1, if_neg (by omega)]; ring
  · rw [h h1, h1]; ring
  · rw [if_pos h1, if_neg (not_lt.mpr h1.le)]; ring

/-- Swapping the endpoints reflects the emitted sequence through the midpoint
of the segment, point by point. -/
theorem bresenhamTrace_swap (x1 y1 x2 y2 : Int) :
    bresenhamTrace x2 y2 x1 y1 =
      (bresenhamTrace x1 y1 x2 y2).map (fun p => (x1 + x2 - p.1, y1 + y2 - p.2)) := by
  unfold bresenhamTrace
  rw [bresenhamSteps_comm, List.map_map, abs_sub_comm x1 x2, abs_sub_comm y1 y2]
  apply List.map_congr_left
  intro k hk
  have hN := bresenhamSteps_cast x1 y1 x2 y2
  have hk' : (k : Int) ≤ max |x2 - x1| |y2 - y1| := by
    rw [← hN]; exact_mod_cast Nat.lt_succ_iff.mp (List.mem_range.mp hk)
  obtain ⟨ha0, ha, hb0, hb, _⟩ :=
    bresenhamNorm_facts _ _ (abs_nonneg (x2 - x1)) (abs_nonneg (y2 - y1)) k hk'
  simp only [Function.comp_apply, Prod.mk.injEq]
  constructor
  · apply bresenham_sign_swap
    intro h
    have hz : |x2 - x1| = 0 := by rw [h, sub_self, abs_zero]
    omega
  · apply bresenham_sign_swap
    intro h
    have hz : |y2 - y1| = 0 := by rw [h, sub_self, abs_zero]
    omega

/-- On a horizontal, vertical or diagonal segment the step counts are explicit. -/
theorem bresenhamNorm_regular (dx dy : Int) (hdx : 0 ≤ dx) (hdy : 0 ≤ dy)
    (h : dx = 0 ∨ dy = 0 ∨ dx = dy) (k : Nat) (hk : (k : Int) ≤ max dx dy) :
    (bresenhamNorm dx dy k).1 = (if dx = 0 then 0 else (k : Int)) ∧
    (bresenhamNorm dx dy k).2.1 = (if dy = 0 then 0 else (k : Int)) := by
  obtain ⟨ha0, ha, hb0, hb, _, hd, hx, hy⟩ := bresenhamNorm_facts dx dy hdx hdy k hk
  generalize bresenhamNorm dx dy k = s at ha0 ha hb0 hb hd hx hy ⊢
  obtain ⟨a, b, e⟩ := s
  simp only at ha0 ha hb0 hb hd hx hy ⊢
  by_cases h0 : dx = 0
  · subst h0
    rw [if_pos rfl]
    refine ⟨by omega, ?_⟩
    split_ifs with h1
    · omega
    · exact hy (by omega)
  · rw [if_neg h0]
    by_cases h1 : dy = 0
    · subst h1
      rw [if_pos rfl]
      exact ⟨hx hdx, by omega⟩
    · rw [if_neg h1]
      have hdd : dx = dy := by omega
      subst hdd
      have hak := hx (le_refl _)
      subst hak
      refine ⟨rfl, ?_⟩
      rw [max_self] at hd
      have hpos : 0 < dx := by omega
      rcases lt_trichotomy b (k : Int) with hlt | heq | hgt
      · have e1 : (b + 1) * dx ≤ (k : Int) * dx := mul_le_mul_of_nonneg_right (by omega) hdx
        rcases abs_cases (b * dx - (k : Int) * dx) with ⟨hab, _⟩ | ⟨hab, _⟩ <;>
          rw [hab] at hd <;> nlinarith
      · exact heq
      · have e1 : ((k : Int) + 1) * dx ≤ b * dx := mul_le_mul_of_nonneg_right (by omega) hdx
        rcases abs_cases (b * dx - (k : Int) * dx) with ⟨hab, _⟩ | ⟨hab, _⟩ <;>
          rw [hab] at hd <;> nlinarith

theorem bresenhamNorm_regular_sum (dx dy : Int) (hdx : 0 ≤ dx) (hdy : 0 ≤ dy)
    (h : dx = 0 ∨ dy = 0 ∨ dx = dy) (n k : Nat) (hn : (n : Int) = max dx dy) (hk : k ≤ n) :
    (bresenhamNorm dx dy k).1 + (bresenhamNorm dx dy (n - k)).1 = dx ∧
    (bresenhamNorm dx dy k).2.1 + (bresenhamNorm dx dy (n - k)).2.1 = dy := by
  have hk1 : (k : Int) ≤ max dx dy := by rw [← hn]; exact_mod_cast hk
  have hk2 : ((n - k : Nat) : Int) ≤ max dx dy := by
    rw [← hn]; exact_mod_cast Nat.sub_le n k
  obtain ⟨h1, h2⟩ := bresenhamNorm_regular dx dy hdx hdy h k hk1
  obtain ⟨h3, h4⟩ := bresenhamNorm_regular dx dy hdx hdy h (n - k) hk2
  rw [h1, h2, h3, h4, Nat.cast_sub hk, hn]
  rcases le_total dy dx with hle | hle
  · rw [max_eq_left hle]
    constructor <;> split_ifs <;> omega
  · rw [max_eq_right hle]
    constructor <;> split_ifs <;> omega

/-- On a horizontal, vertical or diagonal segment the reflection through the
midpoint maps the `k`-th emitted point to the `k`-th from the end. -/
theorem bresenhamTrace_regular_reflect (x1 y1 x2 y2 : Int)
    (h : x1 = x2 ∨ y1 = y2 ∨ |x2 - x1| = |y2 - y1|) (p : Int × Int) :
    p ∈ bresenhamTrace x1 y1 x2 y2 ↔
      (x1 + x2 - p.1, y1 + y2 - p.2) ∈ bresenhamTrace x1 y1 x2 y2 := by
  have hN := bresenhamSteps_cast x1 y1 x2 y2
  have hreg : |x2 - x1| = 0 ∨ |y2 - y1| = 0 ∨ |x2 - x1| = |y2 - y1| := by
    rcases h with h | h | h
    · left; rw [h, sub_self, abs_zero]
    · right; left; rw [h, sub_self, abs_zero]
    · right; right; exact h
  have hsx := bresenham_sign_mul_abs x1 x2
  have hsy := bresenham_sign_mul_abs y1 y2
  have key : ∀ k, k ≤ bresenhamSteps x1 y1 x2 y2 →
      (if x1 < x2 then (1 : Int) else -1) * (bresenhamNorm |x2 - x1| |y2 - y1| k).1 +
        (if x1 < x2 then (1 : Int) else -1) *
          (bresenhamNorm |x2 - x1| |y2 - y1| (bresenhamSteps x1 y1 x2 y2 - k)).1 = x2 - x1 ∧
      (if y1 < y2 then (1 : Int) else -1) * (bresenhamNorm |x2 - x1| |y2 - y1| k).2.1 +
        (if y1 < y2 then (1 : Int) else -1) *
          (bresenhamNorm |x2 - x1| |y2 - y1| (bresenhamSteps x1 y1 x2 y2 - k)).2.1 = y2 - y1 := by
    intro k hk
    obtain ⟨e1, e2⟩ := bresenhamNorm_regular_sum _ _ (abs_nonneg (x2 - x1))
      (abs_nonneg (y2 - y1)) hreg _ k hN hk
    rw [← mul_add, ← mul_add, e1, e2, hsx, hsy]
    exact ⟨rfl, rfl⟩
  simp only [bresenhamTrace, List.mem_map, List.mem_range, Nat.lt_succ_iff]
  constructor
  · rintro ⟨k, hk, rfl⟩
    obtain ⟨e1, e2⟩ := key k hk
    refine ⟨bresenhamSteps x1 y1 x2 y2 - k, Nat.sub_le _ _, ?_⟩
    simp only [Prod.mk.injEq]
    constructor <;> linarith
  · rintro ⟨k, hk, hp⟩
    obtain ⟨e1, e2⟩ := key k hk
    simp only [Prod.mk.injEq] at hp
    refine ⟨bresenhamSteps x1 y1 x2 y2 - k, Nat.sub_le _ _, ?_⟩
    apply Prod.ext <;> simp only <;> linarith [hp.1, hp.2]

/-- C4, the claim as stated fails: from `(0,0)` to `(2,1)` the pixel `(1,0)` is
emitted, from `(2,1)` to `(0,0)` the pixel `(1,1)` is emitted instead. -/
theorem drawLineBresenham_reverse_set_counterexample :
    ¬ (∀ pts pts' : List (Int × Int),
        Emits (fun fuel => drawLineBresenham fuel 0 0 2 1) pts →
        Emits (fun fuel => drawLineBresenham fuel 2 1 0 0) pts' →
        ∀ p, p ∈ pts ↔ p ∈ pts') := by
  intro h
  have e1 : EmitsAfter (fun fuel => drawLineBresenham fuel 0 0 2 1) 3 [(0, 0), (1, 0), (2, 1)] :=
    drawLineBresenham_emitsAfter 0 0 2 1
  have e2 : EmitsAfter (fun fuel => drawLineBresenham fuel 2 1 0 0) 3 [(2, 1), (1, 1), (0, 0)] :=
    drawLineBresenham_emitsAfter 2 1 0 0
  have := (h _ _ ⟨3, e1⟩ ⟨3, e2⟩ (1, 0)).mp (by decide)
  revert this
  decide

/-- C4 (amended). Reversing the endpoints reflects the emitted sequence through
the midpoint of the segment: the `k`-th point emitted from `Q` to `P` is
`P + Q` minus the `k`-th point emitted from `P` to `Q`. When the segment is
horizontal, vertical or diagonal the two runs emit the same set of points. -/
theorem drawLineBresenham_reverse (x1 y1 x2 y2 : Int) :
    ∃ pts pts' : List (Int × Int),
      Emits (fun fuel => drawLineBresenham fuel x1 y1 x2 y2) pts ∧
      Emits (fun fuel => drawLineBresenham fuel x2 y2 x1 y1) pts' ∧
      pts' = pts.map (fun p => (x1 + x2 - p.1, y1 + y2 - p.2)) ∧
      ((x1 = x2 ∨ y1 = y2 ∨ |x2 - x1| = |y2 - y1|) → ∀ p, p ∈ pts ↔ p ∈ pts') := by
  refine ⟨bresenhamTrace x1 y1 x2 y2, bresenhamTrace x2 y2 x1 y1,
    ⟨_, drawLineBresenham_emitsAfter x1 y1 x2 y2⟩,
    ⟨_, drawLineBresenham_emitsAfter x2 y2 x1 y1⟩, bresenhamTrace_swap x1 y1 x2 y2, ?_⟩
  intro h p
  rw [bresenhamTrace_swap x1 y1 x2 y2, List.mem_map]
  constructor
  · intro hp
    exact ⟨_, (bresenhamTrace_regular_reflect x1 y1 x2 y2 h p).mp hp, by simp⟩
  · rintro ⟨q, hq, rfl⟩
    exact (bresenhamTrace_regular_reflect x1 y1 x2 y2 h q).mp hq

/-- C4 (amended), instance: the diagonal from `(0,0)` to `(3,3)`. -/
theorem drawLineBresenham_reverse_witness :
    ((0 : Int) = 3 ∨ (0 : Int) = 3 ∨ |(3 : Int) - 0| = |(3 : Int) - 0|) ∧
    ∃ pts pts' : List (Int × Int),
      Emits (fun fuel => drawLineBresenham fuel 0 0 3 3) pts ∧
      Emits (fun fuel => drawLineBresenham fuel 3 3 0 0) pts' ∧
      pts' = pts.map (fun p => (0 + 3 - p.1, 0 + 3 - p.2)) ∧
      ∀ p, p ∈ pts ↔ p ∈ pts' := by
  refine ⟨by decide, ?_⟩
  obtain ⟨pts, pts', h1, h2, h3, h4⟩ := drawLineBresenham_reverse 0 0 3 3
  exact ⟨pts, pts', h1, h2, h3, h4 (by decide)⟩

/-! ## DDA line: proofs -/

/-- The `for` loop of `drawLineDDA`, started with counter `i`, runs its body
for `i, i+1, ..., ⌊steps⌋` and then exits. -/
theorem ddaLoop_emitsAfter (steps xi yi : ℚ) (n : Nat) :
    ∀ (i : Int) (x y : ℚ), (⌊steps⌋ + 1 - i).toNat = n →
      EmitsAfter (fun fuel => ddaLoop steps xi yi fuel i x y) (n + 1)
        ((List.range n).map (fun (k : Nat) => (x + (k : ℚ) * xi, y + (k : ℚ) * yi))) := by
  induction n with
  | zero =>
    intro i x y hn fuel
    have hlt : ⌊steps⌋ < i := by omega
    have hnot : ¬ (i : ℚ) ≤ steps := not_le.mpr (Int.floor_lt.mp hlt)
    cases fuel with
    | zero => rfl
    | succ fuel => simp [ddaLoop, hnot]
  | succ n ih =>
    intro i x y hn fuel
    have hle : (i : ℚ) ≤ steps := Int.le_floor.mp (by omega)
    cases fuel with
    | zero => rfl
    | succ fuel =>
      have := ih (i + 1) (x + xi) (y + yi) (by omega) fuel
      simp only at this
      simp only [ddaLoop, hle, if_true, this]
      by_cases hf : n + 1 ≤ fuel
      · rw [if_pos hf, if_pos (by omega)]
        simp only [Option.map_some', Option.some.injEq]
        rw [List.range_succ_eq_map n, List.map_cons, List.map_map]
        simp only [Nat.cast_zero, zero_mul, add_zero, List.cons.injEq, true_and]
        apply List.map_congr_left
        intro k _
        simp only [Function.comp_apply, Nat.cast_succ, Prod.mk.injEq]
        constructor <;> ring
      · rw [if_neg hf, if_neg (by omega)]
        rfl

/-- The `int` that `abs` returns for a `float` argument is the integer part of
the absolute value of that number. -/
theorem floatToInt_abs (q : ℚ) : |floatToInt q| = ⌊|q|⌋ := by
  unfold floatToInt
  split_ifs with h
  · rw [abs_of_nonneg h, abs_of_nonneg (Int.floor_nonneg.mpr h)]
  · push_neg at h
    have hc : ⌈q⌉ ≤ 0 := Int.ceil_le.mpr (by exact_mod_cast h.le)
    rw [abs_of_neg h, Int.floor_neg, abs_of_nonpos hc]

/-- The variable `steps` holds the integer part of the longer of `|dx|`, `|dy|`,
replaced by `1` when that is `0`. -/
theorem ddaSteps_eq (x1 y1 x2 y2 : ℚ) :
    ddaSteps x1 y1 x2 y2 = ((max ⌊max |x2 - x1| |y2 - y1|⌋ 1 : Int) : ℚ) := by
  have hm : (if |floatToInt (x2 - x1)| > |floatToInt (y2 - y1)|
      then ((|floatToInt (x2 - x1)| : Int) : ℚ)
      else ((|floatToInt (y2 - y1)| : Int) : ℚ)) = ((⌊max |x2 - x1| |y2 - y1|⌋ : Int) : ℚ) := by
    have hmax : ⌊max |x2 - x1| |y2 - y1|⌋ = max ⌊|x2 - x1|⌋ ⌊|y2 - y1|⌋ := by
      rcases le_total |x2 - x1| |y2 - y1| with hab | hab
      · rw [max_eq_right hab, max_eq_right (Int.floor_mono hab)]
      · rw [max_eq_left hab, max_eq_left (Int.floor_mono hab)]
    rw [floatToInt_abs, floatToInt_abs, hmax]
    split_ifs with h
    · rw [max_eq_left h.le]
    · rw [max_eq_right (not_lt.mp h)]
  unfold ddaSteps
  rw [hm]
  have h0 : 0 ≤ ⌊max |x2 - x1| |y2 - y1|⌋ :=
    Int.floor_nonneg.mpr (le_max_of_le_left (abs_nonneg _))
  split_ifs with h
  · have hz : ⌊max |x2 - x1| |y2 - y1|⌋ = 0 := by exact_mod_cast h
    rw [hz]
    simp
  · have hz : ⌊max |x2 - x1| |y2 - y1|⌋ ≠ 0 := by exact_mod_cast h
    rw [max_eq_left (show (1 : Int) ≤ ⌊max |x2 - x1| |y2 - y1|⌋ by omega)]

theorem ddaSteps_pos (x1 y1 x2 y2 : ℚ) : 0 < ddaSteps x1 y1 x2 y2 := by
  rw [ddaSteps_eq]
  exact_mod_cast lt_of_lt_of_le one_pos (le_max_right ⌊max |x2 - x1| |y2 - y1|⌋ 1)

/-- The loop of `drawLineDDA` exits at its `⌊steps⌋ + 2`-nd test, having
emitted `ddaTrace`. -/
theorem drawLineDDA_emitsAfter (x1 y1 x2 y2 : ℚ) :
    EmitsAfter (fun fuel => drawLineDDA fuel x1 y1 x2 y2)
      (⌊ddaSteps x1 y1 x2 y2⌋.toNat + 2) (ddaTrace x1 y1 x2 y2) := by
  have hpos := Int.floor_nonneg.mpr (ddaSteps_pos x1 y1 x2 y2).le
  have := ddaLoop_emitsAfter (ddaSteps x1 y1 x2 y2) ((x2 - x1) / ddaSteps x1 y1 x2 y2)
    ((y2 - y1) / ddaSteps x1 y1 x2 y2) (⌊ddaSteps x1 y1 x2 y2⌋.toNat + 1) 0 x1 y1 (by omega)
  exact this

theorem ddaTrace_length (x1 y1 x2 y2 : ℚ) :
    ((ddaTrace x1 y1 x2 y2).length : Int) = ⌊ddaSteps x1 y1 x2 y2⌋ + 1 := by
  have hpos := Int.floor_nonneg.mpr (ddaSteps_pos x1 y1 x2 y2).le
  simp only [ddaTrace, List.length_map, List.length_range]
  omega

/-- C6, the claim as stated fails: with both endpoints `(2,3)` the sequence
emitted is not the single point `(2,3)`. -/
theorem drawLineDDA_degenerate_counterexample :
    ¬ (∀ pts : List (ℚ × ℚ),
        Emits (fun fuel => drawLineDDA fuel ((2 : Int) : ℚ) ((3 : Int) : ℚ)
          ((2 : Int) : ℚ) ((3 : Int) : ℚ)) pts →
        pts = [(((2 : Int) : ℚ), ((3 : Int) : ℚ))]) := by
  intro h
  have := h _ ⟨_, drawLineDDA_emitsAfter _ _ _ _⟩
  have hl := congrArg (fun l : List (ℚ × ℚ) => (l.length : Int)) this
  simp only [ddaTrace_length] at hl
  have hs : ddaSteps ((2 : Int) : ℚ) ((3 : Int) : ℚ) ((2 : Int) : ℚ) ((3 : Int) : ℚ) = 1 := by
    simp [ddaSteps, floatToInt]
  rw [hs, Int.floor_one] at hl
  simp at hl

/-- C6 (amended). For every point `(x, y)` with integer coordinates,
`drawLineDDA` called with both endpoints equal to `(x, y)` sets `steps` to `1`,
runs its loop body for `i = 0` and `i = 1` and emits two points, both equal
to `(x, y)`. -/
theorem drawLineDDA_degenerate (x y : Int) :
    EmitsAfter (fun fuel => drawLineDDA fuel (x : ℚ) (y : ℚ) (x : ℚ) (y : ℚ)) 3
      [((x : ℚ), (y : ℚ)), ((x : ℚ), (y : ℚ))] := by
  have h := drawLineDDA_emitsAfter (x : ℚ) (y : ℚ) (x : ℚ) (y : ℚ)
  have hs : ddaSteps (x : ℚ) (y : ℚ) (x : ℚ) (y : ℚ) = 1 := by simp [ddaSteps, floatToInt]
  simpa [ddaTrace, hs, List.range_succ] using h

/-- The loop of `drawCircleMidpoint` terminates from every state: `y - x`
decreases in each iteration. It emits the eight vertices of each offset pair
of `circleOffsets`, and exits at the test that follows the last of them. -/
theorem circleLoop_emitsAfter (cx cy : Int) (m : Nat) :
    ∀ (x y d : Int), (y - x + 1).toNat ≤ m →
      EmitsAfter (fun fuel => circleLoop cx cy fuel x y d)
        ((circleOffsets m x y d).length + 1)
        ((circleOffsets m x y d).flatMap (fun o => circleOctants cx cy o.1 o.2)) := by
  induction m with
  | zero =>
    intro x y d hm fuel
    have hnot : ¬ x ≤ y := by omega
    cases fuel with
    | zero => rfl
    | succ fuel => simp [circleLoop, circleOffsets, hnot]
  | succ m ih =>
    intro x y d hm fuel
    by_cases hxy : x ≤ y
    · have hrec := ih (x + 1) (if d < 0 then y else y - 1)
        (if d < 0 then d + 2 * x + 3 else d + 2 * (x - y) + 5)
        (by split_ifs <;> omega)
      cases fuel with
      | zero => rfl
      | succ fuel =>
        have := hrec fuel
        simp only at this
        simp only [circleLoop, circleOffsets, hxy, if_true, this, List.length_cons,
          List.flatMap_cons, Nat.add_le_add_iff_right]
        split_ifs <;> rfl
    · cases fuel with
      | zero => simp [circleLoop, circleOffsets, hxy]
      | succ fuel => simp [circleLoop, circleOffsets, hxy]

/-- The loop of `drawCircleMidpoint` terminates for every radius. -/
theorem drawCircleMidpoint_emitsAfter (cx cy radius : Int) :
    EmitsAfter (fun fuel => drawCircleMidpoint fuel cx cy radius)
      ((circleOffsets (radius + 1).toNat 0 radius (1 - radius)).length + 1)
      ((circleOffsets (radius + 1).toNat 0 radius (1 - radius)).flatMap
        (fun o => circleOctants cx cy o.1 o.2)) :=
  circleLoop_emitsAfter cx cy (radius + 1).toNat 0 radius (1 - radius) (by omega)

/-- C9, the claim as stated fails: the circle of radius 5 about `(0,0)`
contains the point `(2,5)`, whose squared distance from the centre is `29`. -/
theorem drawCircleMidpoint_radius5_error_counterexample :
    ¬ (∀ pts : List (Int × Int), Emits (fun fuel => drawCircleMidpoint fuel 0 0 5) pts →
        ∀ p ∈ pts, |p.1 ^ 2 + p.2 ^ 2 - 25| ≤ 1) := by
  intro h
  have := h _ ⟨_, drawCircleMidpoint_emitsAfter 0 0 5⟩ (2, 5) (by decide)
  revert this
  decide

/-- C9 (amended). For radius 5 and centre `(0,0)`, every point `(px, py)`
emitted by `drawCircleMidpoint` satisfies `|px^2 + py^2 - 25| ≤ 4`. -/
theorem drawCircleMidpoint_radius5_error :
    ∃ pts : List (Int × Int), Emits (fun fuel => drawCircleMidpoint fuel 0 0 5) pts ∧
      ∀ p ∈ pts, |p.1 ^ 2 + p.2 ^ 2 - 25| ≤ 4 := by
  refine ⟨_, ⟨_, drawCircleMidpoint_emitsAfter 0 0 5⟩, ?_⟩
  decide

/-- C10. For every integer centre `(cx, cy)` and every radius `r ≥ 0`, the
points emitted by `drawCircleMidpoint` include the four axis points
`(cx+r, cy)`, `(cx-r, cy)`, `(cx, cy+r)` and `(cx, cy-r)`. -/
theorem drawCircleMidpoint_axis_points (cx cy r : Int) (hr : 0 ≤ r) :
    ∃ pts : List (Int × Int), Emits (fun fuel => drawCircleMidpoint fuel cx cy r) pts ∧
      (cx + r, cy) ∈ pts ∧ (cx - r, cy) ∈ pts ∧ (cx, cy + r) ∈ pts ∧ (cx, cy - r) ∈ pts := by
  refine ⟨_, ⟨_, drawCircleMidpoint_emitsAfter cx cy r⟩, ?_⟩
  obtain ⟨m, hm⟩ : ∃ m, (r + 1).toNat = m + 1 := ⟨r.toNat, by omega⟩
  rw [hm]
  simp only [circleOffsets, hr, if_true, List.flatMap_cons, circleOctants, add_zero, sub_zero]
  simp

/-- C10, instance: radius 5 at `(0,0)` includes `(5,0)`, `(-5,0)`, `(0,5)`, `(0,-5)`. -/
theorem drawCircleMidpoint_axis_points_witness :
    (0 : Int) ≤ 5 ∧
    ∃ pts : List (Int × Int), Emits (fun fuel => drawCircleMidpoint fuel 0 0 5) pts ∧
      (5, 0) ∈ pts ∧ (-5, 0) ∈ pts ∧ (0, 5) ∈ pts ∧ (0, -5) ∈ pts :=
  ⟨by decide, by simpa using drawCircleMidpoint_axis_points 0 0 5 (by decide)⟩

/-- C11. For every integer centre `(cx, cy)`, `drawCircleMidpoint` with radius 0
runs its loop body once (the loop exits at its second test) and emits exactly
8 points, each of them equal to `(cx, cy)`. -/
theorem drawCircleMidpoint_radius_zero (cx cy : Int) :
    EmitsAfter (fun fuel => drawCircleMidpoint fuel cx cy 0) 2 (List.replicate 8 (cx, cy)) := by
  intro fuel
  rcases fuel with _ | _ | fuel
  · rfl
  · rfl
  · simp [drawCircleMidpoint, circleLoop, circleOctants, List.replicate]

theorem circleOctants_length (cx cy x y : Int) : (circleOctants cx cy x y).length = 8 := rfl

theorem circleOffsets_flatMap_length (cx cy : Int) (offs : List (Int × Int)) :
    (offs.flatMap (fun o => circleOctants cx cy o.1 o.2)).length = 8 * offs.length := by
  induction offs with
  | nil => rfl
  | cons o offs ih =>
    rw [List.flatMap_cons, List.length_append, ih, circleOctants_length, List.length_cons]
    ring

/-- Membership in the eight vertices of one iteration, in offsets from the centre. -/
theorem mem_circleOctants (cx cy x y a b : Int) :
    (cx + a, cy + b) ∈ circleOctants cx cy x y ↔
      ((a = x ∨ a = -x) ∧ (b = y ∨ b = -y)) ∨ ((a = y ∨ a = -y) ∧ (b = x ∨ b = -x)) := by
  simp only [circleOctants, List.mem_cons, Prod.mk.injEq, List.mem_singleton, List.mem_nil_iff,
    or_false]
  constructor
  · rintro (⟨h1, h2⟩ | ⟨h1, h2⟩ | ⟨h1, h2⟩ | ⟨h1, h2⟩ | ⟨h1, h2⟩ | ⟨h1, h2⟩ | ⟨h1, h2⟩ |
      ⟨h1, h2⟩)
    · exact Or.inl ⟨Or.inl (by omega), Or.inl (by omega)⟩
    · exact Or.inl ⟨Or.inr (by omega), Or.inl (by omega)⟩
    · exact Or.inl ⟨Or.inl (by omega), Or.inr (by omega)⟩
    · exact Or.inl ⟨Or.inr (by omega), Or.inr (by omega)⟩
    · exact Or.inr ⟨Or.inl (by omega), Or.inl (by omega)⟩
    · exact Or.inr ⟨Or.inr (by omega), Or.inl (by omega)⟩
    · exact Or.inr ⟨Or.inl (by omega), Or.inr (by omega)⟩
    · exact Or.inr ⟨Or.inr (by omega), Or.inr (by omega)⟩
  · rintro (⟨rfl | rfl, rfl | rfl⟩ | ⟨rfl | rfl, rfl | rfl⟩)
    · exact Or.inl ⟨rfl, rfl⟩
    · exact Or.inr (Or.inr (Or.inl ⟨rfl, by ring⟩))
    · exact Or.inr (Or.inl ⟨by ring, rfl⟩)
    · exact Or.inr (Or.inr (Or.inr (Or.inl ⟨by ring, by ring⟩)))
    · exact Or.inr (Or.inr (Or.inr (Or.inr (Or.inl ⟨rfl, rfl⟩))))
    · exact Or.inr (Or.inr (Or.inr (Or.inr (Or.inr (Or.inr (Or.inl ⟨rfl, by ring⟩))))))
    · exact Or.inr (Or.inr (Or.inr (Or.inr (Or.inr (Or.inl ⟨by ring, rfl⟩)))))
    · exact Or.inr (Or.inr (Or.inr (Or.inr (Or.inr (Or.inr (Or.inr ⟨by ring, by ring⟩))))))

/-- The eight vertices of one iteration are closed under the reflections in the
two axes through the centre and in the diagonal. -/
theorem circleOctants_symmetric (cx cy x y a b : Int)
    (h : (cx + a, cy + b) ∈ circleOctants cx cy x y) :
    (cx - a, cy + b) ∈ circleOctants cx cy x y ∧ (cx + a, cy - b) ∈ circleOctants cx cy x y ∧
    (cx + b, cy + a) ∈ circleOctants cx cy x y := by
  rw [mem_circleOctants] at h
  rw [sub_eq_add_neg cx a, sub_eq_add_neg cy b, mem_circleOctants, mem_circleOctants,
    mem_circleOctants]
  refine ⟨?_, ?_, ?_⟩ <;> omega

/-- C14. For every integer centre and radius, the points emitted by
`drawCircleMidpoint` are symmetric about the centre: with `(cx+a, cy+b)` also
`(cx-a, cy+b)`, `(cx+a, cy-b)` and `(cx+b, cy+a)` are emitted; and the number of
emitted points is 8 times the number `n` of loop iterations (the loop exits at
its test number `n + 1`). -/
theorem drawCircleMidpoint_symmetric (cx cy r : Int) :
    ∃ (n : Nat) (pts : List (Int × Int)),
      EmitsAfter (fun fuel => drawCircleMidpoint fuel cx cy r) (n + 1) pts ∧
      pts.length = 8 * n ∧
      ∀ a b : Int, (cx + a, cy + b) ∈ pts →
        (cx - a, cy + b) ∈ pts ∧ (cx + a, cy - b) ∈ pts ∧ (cx + b, cy + a) ∈ pts := by
  refine ⟨_, _, drawCircleMidpoint_emitsAfter cx cy r, circleOffsets_flatMap_length cx cy _, ?_⟩
  intro a b hab
  simp only [List.mem_flatMap] at hab ⊢
  obtain ⟨o, ho, hmem⟩ := hab
  obtain ⟨h1, h2, h3⟩ := circleOctants_symmetric cx cy o.1 o.2 a b hmem
  exact ⟨⟨o, ho, h1⟩, ⟨o, ho, h2⟩, ⟨o, ho, h3⟩⟩

/-- C14, instance: the circle of radius 5 about `(0,0)` contains `(2,5)` and
with it `(-2,5)`, `(2,-5)` and `(5,2)`. -/
theorem drawCircleMidpoint_symmetric_witness :
    ∃ (n : Nat) (pts : List (Int × Int)),
      EmitsAfter (fun fuel => drawCircleMidpoint fuel 0 0 5) (n + 1) pts ∧
      pts.length = 8 * n ∧ ((0 : Int) + 2, (0 : Int) + 5) ∈ pts ∧
      ((0 : Int) - 2, (0 : Int) + 5) ∈ pts ∧ ((0 : Int) + 2, (0 : Int) - 5) ∈ pts ∧
      ((0 : Int) + 5, (0 : Int) + 2) ∈ pts := by
  obtain ⟨n, pts, h1, h2, h3⟩ := drawCircleMidpoint_symmetric 0 0 5
  have hpts := Emits.unique ⟨_, h1⟩ ⟨_, drawCircleMidpoint_emitsAfter 0 0 5⟩
  have hmem : ((0 : Int) + 2, (0 : Int) + 5) ∈ pts := by
    rw [hpts]
    decide
  exact ⟨n, pts, h1, h2, hmem, h3 2 5 hmem⟩

/-- Loop invariant of the midpoint circle loop: `d` is the circle function at
the midpoint below the next candidate pixel, and at every state that passes
the loop test the squared distance from the centre is within `y` of `r^2`. -/
theorem circleOffsets_invariant (r : Int) (m : Nat) :
    ∀ (x y d : Int), 0 ≤ x → y ≤ r → d = (x + 1) ^ 2 + y ^ 2 - y - r ^ 2 →
      (x ≤ y → -y ≤ x ^ 2 + y ^ 2 - r ^ 2 ∧ x ^ 2 + y ^ 2 - r ^ 2 ≤ y) →
      (circleOffsets m x y d).length ≤ (r + 1 - x).toNat ∧
      ∀ o ∈ circleOffsets m x y d,
        0 ≤ o.1 ∧ o.1 ≤ o.2 ∧ o.2 ≤ r ∧ |o.1 ^ 2 + o.2 ^ 2 - r ^ 2| ≤ r := by
  induction m with
  | zero =>
    intro x y d _ _ _ _
    simp [circleOffsets]
  | succ m ih =>
    intro x y d hx hy hd he
    by_cases hxy : x ≤ y
    · obtain ⟨he1, he2⟩ := he hxy
      have hrec := ih (x + 1) (if d < 0 then y else y - 1)
        (if d < 0 then d + 2 * x + 3 else d + 2 * (x - y) + 5) (by omega)
        (by split_ifs <;> omega)
        (by
          split_ifs with hneg
          · rw [hd]; ring
          · rw [hd]; ring)
        (by
          split_ifs with hneg
          · intro _
            constructor <;> nlinarith
          · intro hlt
            constructor <;> nlinarith)
      simp only [circleOffsets, hxy, if_true, List.length_cons, List.mem_cons]
      refine ⟨by have := hrec.1; omega, ?_⟩
      rintro o (rfl | ho)
      · refine ⟨hx, hxy, hy, ?_⟩
        rw [abs_le]
        constructor <;> linarith
      · exact hrec.2 o ho
    · simp [circleOffsets, hxy]

/-- C16. For every integer centre and radius `r ≥ 0` the loop of
`drawCircleMidpoint` terminates after at most `r + 1` iterations, and every
offset pair `(x, y)` whose eight vertices it emits satisfies `0 ≤ x ≤ y ≤ r`
and `|x^2 + y^2 - r^2| ≤ r`. For `r < 0` the loop exits at its first test and
nothing is emitted. -/
theorem drawCircleMidpoint_offsets_bound (cx cy r : Int) :
    (0 ≤ r → ∃ offs : List (Int × Int),
      EmitsAfter (fun fuel => drawCircleMidpoint fuel cx cy r) (offs.length + 1)
        (offs.flatMap (fun o => circleOctants cx cy o.1 o.2)) ∧
      (offs.length : Int) ≤ r + 1 ∧
      ∀ o ∈ offs, 0 ≤ o.1 ∧ o.1 ≤ o.2 ∧ o.2 ≤ r ∧ |o.1 ^ 2 + o.2 ^ 2 - r ^ 2| ≤ r) ∧
    (r < 0 → EmitsAfter (fun fuel => drawCircleMidpoint fuel cx cy r) 1 []) := by
  constructor
  · intro hr
    obtain ⟨hlen, hall⟩ := circleOffsets_invariant r (r + 1).toNat 0 r (1 - r) (le_refl 0)
      (le_refl r) (by ring) (fun _ => by constructor <;> nlinarith)
    exact ⟨_, drawCircleMidpoint_emitsAfter cx cy r, by omega, hall⟩
  · intro hr fuel
    have hnot : ¬ (0 : Int) ≤ r := not_le.mpr hr
    cases fuel with
    | zero => rfl
    | succ fuel => simp [drawCircleMidpoint, circleLoop, hnot]

/-- C16, instances: radius 5 (at most 6 iterations) and radius -1 (no point),
both about `(0,0)`. -/
theorem drawCircleMidpoint_offsets_bound_witness :
    ((0 : Int) ≤ 5 ∧ ∃ offs : List (Int × Int),
      EmitsAfter (fun fuel => drawCircleMidpoint fuel 0 0 5) (offs.length + 1)
        (offs.flatMap (fun o => circleOctants 0 0 o.1 o.2)) ∧
      (offs.length : Int) ≤ 5 + 1 ∧
      ∀ o ∈ offs, 0 ≤ o.1 ∧ o.1 ≤ o.2 ∧ o.2 ≤ 5 ∧ |o.1 ^ 2 + o.2 ^ 2 - 5 ^ 2| ≤ 5) ∧
    ((-1 : Int) < 0 ∧ EmitsAfter (fun fuel => drawCircleMidpoint fuel 0 0 (-1)) 1 []) :=
  ⟨⟨by decide, (drawCircleMidpoint_offsets_bound 0 0 5).1 (by decide)⟩,
    ⟨by decide, (drawCircleMidpoint_offsets_bound 0 0 (-1)).2 (by decide)⟩⟩

theorem bresenham_abs_sign (u v a : Int) (ha : 0 ≤ a) :
    |u + (if u < v then (1 : Int) else -1) * a - u| = a := by
  split_ifs
  · rw [show u + 1 * a - u = a by ring, abs_of_nonneg ha]
  · rw [show u + -1 * a - u = -a by ring, abs_neg, abs_of_nonneg ha]

/-- C15. For all integer endpoints, every point `(x, y)` emitted by
`drawLineBresenham` lies within half a pixel of the ideal line along the minor
axis, `2 * |b*dx - a*dy| ≤ max(dx, dy)` with `a = |x - x1|`, `b = |y - y1|`, and
inside the bounding box of the endpoints, `a ≤ dx` and `b ≤ dy`. -/
theorem drawLineBresenham_half_pixel (x1 y1 x2 y2 : Int) :
    ∃ pts : List (Int × Int),
      Emits (fun fuel => drawLineBresenham fuel x1 y1 x2 y2) pts ∧
      ∀ p ∈ pts,
        2 * abs (|p.2 - y1| * |x2 - x1| - |p.1 - x1| * |y2 - y1|) ≤ max |x2 - x1| |y2 - y1| ∧
        |p.1 - x1| ≤ |x2 - x1| ∧ |p.2 - y1| ≤ |y2 - y1| := by
  refine ⟨bresenhamTrace x1 y1 x2 y2, ⟨_, drawLineBresenham_emitsAfter x1 y1 x2 y2⟩, ?_⟩
  intro p hp
  simp only [bresenhamTrace, List.mem_map, List.mem_range, Nat.lt_succ_iff] at hp
  obtain ⟨k, hk, rfl⟩ := hp
  have hN := bresenhamSteps_cast x1 y1 x2 y2
  obtain ⟨ha0, ha, hb0, hb, _, hd, _⟩ := bresenhamNorm_facts _ _ (abs_nonneg (x2 - x1))
    (abs_nonneg (y2 - y1)) k (by rw [← hN]; exact_mod_cast hk)
  simp only [bresenham_abs_sign _ _ _ ha0, bresenham_abs_sign _ _ _ hb0]
  exact ⟨hd, ha, hb⟩

/-! ## DDA line: reversal of the endpoints -/

theorem int_sign_abs_cases (D : Int) :
    (D < 0 ∧ D.sign = -1 ∧ |D| = -D) ∨ (D = 0 ∧ D.sign = 0 ∧ |D| = 0) ∨
      (0 < D ∧ D.sign = 1 ∧ |D| = D) := by
  rcases lt_trichotomy D 0 with h | h | h
  · exact Or.inl ⟨h, Int.sign_eq_neg_one_of_neg h, abs_of_neg h⟩
  · subst h
    exact Or.inr (Or.inl ⟨rfl, rfl, abs_zero⟩)
  · exact Or.inr (Or.inr ⟨h, Int.sign_eq_one_of_pos h, abs_of_pos h⟩)

/-- The lattice points of a horizontal, vertical or diagonal segment from the
origin to `(D, E)`, `N` being the length of its longer side: the integer points
`(u, v)` collinear with the endpoints and inside their bounding box are the
multiples `k * (sign D, sign E)` for `k = 0, ..., N`. -/
theorem regular_segment_mem (D E u v : Int) (N : Nat) (hN : (N : Int) = max |D| |E|)
    (hreg : |D| = 0 ∨ |E| = 0 ∨ |D| = |E|) :
    (∃ k : Nat, k ≤ N ∧ u = k * D.sign ∧ v = k * E.sign) ↔
      (u * E = v * D ∧ min 0 D ≤ u ∧ u ≤ max 0 D ∧ min 0 E ≤ v ∧ v ≤ max 0 E) := by
  have hDN : D = D.sign * N := by
    obtain ⟨h, hs, ha⟩ | ⟨h, hs, ha⟩ | ⟨h, hs, ha⟩ := int_sign_abs_cases D <;>
    obtain ⟨h', hs', ha'⟩ | ⟨h', hs', ha'⟩ | ⟨h', hs', ha'⟩ := int_sign_abs_cases E <;>
    rw [hs] <;> rw [ha, ha'] at hN hreg <;> omega
  have hEN : E = E.sign * N := by
    obtain ⟨h, hs, ha⟩ | ⟨h, hs, ha⟩ | ⟨h, hs, ha⟩ := int_sign_abs_cases D <;>
    obtain ⟨h', hs', ha'⟩ | ⟨h', hs', ha'⟩ | ⟨h', hs', ha'⟩ := int_sign_abs_cases E <;>
    rw [hs'] <;> rw [ha, ha'] at hN hreg <;> omega
  have key : u * E = v * D ↔ ((N : Int) = 0 ∨ u * E.sign = v * D.sign) := by
    have e : u * E - v * D = (N : Int) * (u * E.sign - v * D.sign) := by
      calc u * E - v * D = u * (E.sign * N) - v * (D.sign * N) := by rw [← hEN, ← hDN]
        _ = (N : Int) * (u * E.sign - v * D.sign) := by ring
    rw [← sub_eq_zero, e, mul_eq_zero, sub_eq_zero]
  rw [key]
  obtain ⟨h, hs, ha⟩ | ⟨h, hs, ha⟩ | ⟨h, hs, ha⟩ := int_sign_abs_cases D <;>
  obtain ⟨h', hs', ha'⟩ | ⟨h', hs', ha'⟩ | ⟨h', hs', ha'⟩ := int_sign_abs_cases E <;>
  rw [hs, hs'] at * <;> rw [ha, ha'] at hN hreg <;>
  (constructor
   · rintro ⟨k, hk, rfl, rfl⟩
     omega
   · intro hh
     refine ⟨max u.natAbs v.natAbs, ?_, ?_, ?_⟩ <;> omega)

theorem bresenham_sign_regular (u v : Int) (k : Nat) :
    (if u < v then (1 : Int) else -1) * (if |v - u| = 0 then 0 else (k : Int)) =
      k * Int.sign (v - u) := by
  obtain ⟨h, hs, ha⟩ | ⟨h, hs, ha⟩ | ⟨h, hs, ha⟩ := int_sign_abs_cases (v - u)
  · rw [hs, ha, if_neg (by omega), if_neg (by omega)]; ring
  · rw [hs, ha, if_pos rfl]; ring
  · rw [hs, ha, if_pos (by omega), if_neg (by omega)]; ring

/-- On a horizontal, vertical or diagonal segment the emitted sequence advances
by the sign of `x2 - x1` and the sign of `y2 - y1` in every step. -/
theorem bresenhamTrace_regular (x1 y1 x2 y2 : Int)
    (h : |x2 - x1| = 0 ∨ |y2 - y1| = 0 ∨ |x2 - x1| = |y2 - y1|) :
    bresenhamTrace x1 y1 x2 y2 =
      (List.range ((max |x2 - x1| |y2 - y1|).toNat + 1)).map (fun (k : Nat) =>
        (x1 + (k : Int) * Int.sign (x2 - x1), y1 + (k : Int) * Int.sign (y2 - y1))) := by
  unfold bresenhamTrace bresenhamSteps
  apply List.map_congr_left
  intro k hk
  have hN := bresenhamSteps_cast x1 y1 x2 y2
  unfold bresenhamSteps at hN
  have hk' : (k : Int) ≤ max |x2 - x1| |y2 - y1| := by
    rw [← hN]; exact_mod_cast Nat.lt_succ_iff.mp (List.mem_range.mp hk)
  obtain ⟨e1, e2⟩ := bresenhamNorm_regular _ _ (abs_nonneg (x2 - x1)) (abs_nonneg (y2 - y1)) h
    k hk'
  rw [e1, e2, bresenham_sign_regular, bresenham_sign_regular]

/-- C13. For integer endpoints whose segment is horizontal, vertical or
diagonal (`dx = 0`, `dy = 0` or `dx = dy` with `dx = |x2-x1|`, `dy = |y2-y1|`),
`drawLineBresenham` emits the points `(x1, y1) + k * (sign (x2-x1), sign (y2-y1))`
for `k = 0, ..., max(dx, dy)` in this order, without repetition, and these are
exactly the lattice points of the segment: the integer points collinear with
the endpoints and inside their bounding box. -/
theorem drawLineBresenham_regular (x1 y1 x2 y2 : Int)
    (h : |x2 - x1| = 0 ∨ |y2 - y1| = 0 ∨ |x2 - x1| = |y2 - y1|) :
    ∃ pts : List (Int × Int),
      Emits (fun fuel => drawLineBresenham fuel x1 y1 x2 y2) pts ∧
      pts = (List.range ((max |x2 - x1| |y2 - y1|).toNat + 1)).map (fun (k : Nat) =>
        (x1 + (k : Int) * Int.sign (x2 - x1), y1 + (k : Int) * Int.sign (y2 - y1))) ∧
      pts.Nodup ∧
      ∀ p : Int × Int, p ∈ pts ↔
        ((p.1 - x1) * (y2 - y1) = (p.2 - y1) * (x2 - x1) ∧
          min x1 x2 ≤ p.1 ∧ p.1 ≤ max x1 x2 ∧ min y1 y2 ≤ p.2 ∧ p.2 ≤ max y1 y2) := by
  have hN : (((max |x2 - x1| |y2 - y1|).toNat : Nat) : Int) = max |x2 - x1| |y2 - y1| :=
    bresenhamSteps_cast x1 y1 x2 y2
  refine ⟨bresenhamTrace x1 y1 x2 y2, ⟨_, drawLineBresenham_emitsAfter x1 y1 x2 y2⟩,
    bresenhamTrace_regular x1 y1 x2 y2 h, ?_, ?_⟩
  · rw [bresenhamTrace_regular x1 y1 x2 y2 h]
    apply List.Nodup.map_on _ (List.nodup_range _)
    intro k hk k' hk' hkk
    rw [List.mem_range] at hk hk'
    simp only [Prod.mk.injEq, add_right_inj] at hkk
    obtain ⟨e1, e2⟩ := hkk
    obtain ⟨hd, hs, ha⟩ | ⟨hd, hs, ha⟩ | ⟨hd, hs, ha⟩ := int_sign_abs_cases (x2 - x1) <;>
    obtain ⟨hd', hs', ha'⟩ | ⟨hd', hs', ha'⟩ | ⟨hd', hs', ha'⟩ :=
      int_sign_abs_cases (y2 - y1) <;>
    rw [hs] at e1 <;> rw [hs'] at e2 <;> rw [ha, ha'] at hN <;> omega
  · intro p
    have hmem := regular_segment_mem (x2 - x1) (y2 - y1) (p.1 - x1) (p.2 - y1) _ hN h
    rw [bresenhamTrace_regular x1 y1 x2 y2 h]
    simp only [List.mem_map, List.mem_range, Nat.lt_succ_iff]
    constructor
    · rintro ⟨k, hk, rfl⟩
      obtain ⟨c, b1, b2, b3, b4⟩ := hmem.mp ⟨k, hk, by simp, by simp⟩
      exact ⟨c, by omega, by omega, by omega, by omega⟩
    · rintro ⟨c, b1, b2, b3, b4⟩
      obtain ⟨k, hk, e1, e2⟩ := hmem.mpr ⟨c, by omega, by omega, by omega, by omega⟩
      exact ⟨k, hk, Prod.ext (by simp only; linarith) (by simp only; linarith)⟩

/-- C13, instances: `(0,0)-(4,0)` yields `(0,0),(1,0),(2,0),(3,0),(4,0)` and
`(0,0)-(4,4)` yields `(0,0),(1,1),(2,2),(3,3),(4,4)`. -/
theorem drawLineBresenham_regular_witness :
    ((|(4 : Int) - 0| = 0 ∨ |(0 : Int) - 0| = 0 ∨ |(4 : Int) - 0| = |(0 : Int) - 0|) ∧
      ∃ pts : List (Int × Int), Emits (fun fuel => drawLineBresenham fuel 0 0 4 0) pts ∧
        pts = [(0, 0), (1, 0), (2, 0), (3, 0), (4, 0)]) ∧
    ((|(4 : Int) - 0| = 0 ∨ |(4 : Int) - 0| = 0 ∨ |(4 : Int) - 0| = |(4 : Int) - 0|) ∧
      ∃ pts : List (Int × Int), Emits (fun fuel => drawLineBresenham fuel 0 0 4 4) pts ∧
        pts = [(0, 0), (1, 1), (2, 2), (3, 3), (4, 4)]) := by
  constructor
  · refine ⟨by decide, ?_⟩
    obtain ⟨pts, h1, h2, _⟩ := drawLineBresenham_regular 0 0 4 0 (by decide)
    exact ⟨pts, h1, h2.trans (by decide)⟩
  · refine ⟨by decide, ?_⟩
    obtain ⟨pts, h1, h2, _⟩ := drawLineBresenham_regular 0 0 4 4 (by decide)
    exact ⟨pts, h1, h2.trans (by decide)⟩

end InteriorDesign
